import Mathlib

/-!
Verification of the `testepy` repository: a shallow embedding of the
version-directive rewriter (`src/update_version_next.py`) and of the
release-validation check `check_doc_unreleased_version` together with the
`Tag` version model (exercised by `src/tests/test_run_release.py`).

Strings are modelled as `List Char`; file contents are the list of their
characters, files are split into lines exactly as the Python line iteration
does (keeping the terminating newline on each line).
-/

namespace ReleaseTools

/-- Model of the Python regex class `\s` on the ASCII range: space, tab,
newline, vertical tab, form feed, carriage return.  (The embedding models
ASCII text; the Unicode extras of `\s` never occur in the inputs of
interest.) -/
def isSpace (c : Char) : Bool :=
  c = ' ' || c = '\t' || c = '\n' || c = '\x0b' || c = '\x0c' || c = '\r'

/-- Strip the literal character sequence `p` from the front of `l`; `none`
when `l` does not start with `p`.  This models matching a literal piece of
the regex. -/
def dropSeq : List Char → List Char → Option (List Char)
  | [], l => some l
  | _ :: _, [] => none
  | p :: ps, c :: cs => if c = p then dropSeq ps cs else none

/-- The directive-name alternation of `DIRECTIVE_RE`:
`(version(added|changed|removed)|deprecated(-removed)?)`.
The list order `deprecated-removed` before `deprecated` realises the greedy
`(-removed)?`; trying `deprecated` after a successful `deprecated-removed`
could never rescue a failed continuation, because the continuation would
then have to start with `\s*::` while the input continues with `-`, so the
first-match rule below is equivalent to the regex backtracking. -/
def directiveNames : List (List Char) :=
  ["versionadded".toList, "versionchanged".toList, "versionremoved".toList,
   "deprecated-removed".toList, "deprecated".toList]

/-- Match one of the candidate directive names literally at the front of
`l`, returning the name and the rest. -/
def matchName : List (List Char) → List Char → Option (List Char × List Char)
  | [], _ => none
  | n :: ns, l =>
    match dropSeq n l with
    | some r => some (n, r)
    | none => matchName ns l

/-- Faithful model of `DIRECTIVE_RE.fullmatch(line)` from
`src/update_version_next.py`:

    (?P<before> \s*\.\.\s+ (version(added|changed|removed)|deprecated(-removed)?) \s*::\s* )
    next
    (?P<after> .* )

compiled with `re.VERBOSE | re.DOTALL`.  Returns `some (before, after)`
holding the two named capture groups, `none` when the line does not match.
Every `\s*`/`\s+` in the pattern is followed by a non-whitespace literal,
so the greedy maximal-munch split used here is exactly what the
backtracking engine produces, and with `DOTALL` the final `.*` takes the
whole remainder (the newline included). -/
def directiveMatch (line : List Char) : Option (List Char × List Char) :=
  let s0 := line.takeWhile isSpace
  match line.dropWhile isSpace with
  | '.' :: '.' :: r1 =>
    let s1 := r1.takeWhile isSpace
    let r2 := r1.dropWhile isSpace
    if s1 = [] then none
    else
      match matchName directiveNames r2 with
      | none => none
      | some (name, r3) =>
        let s2 := r3.takeWhile isSpace
        match r3.dropWhile isSpace with
        | ':' :: ':' :: r5 =>
          let s3 := r5.takeWhile isSpace
          match dropSeq "next".toList (r5.dropWhile isSpace) with
          | none => none
          | some r7 =>
            some (s0 ++ '.' :: '.' :: (s1 ++ name ++ s2 ++ ':' :: ':' :: s3), r7)
        | _ => none
  | _ => none

/-- One iteration of the per-line loop in `main`: on a full match the line
becomes `match["before"] + version + match["after"]`, otherwise it is kept
unchanged. -/
def processLine (version line : List Char) : List Char :=
  match directiveMatch line with
  | some (b, a) => b ++ version ++ a
  | none => line

/-- The accumulating loop of `main` over the lines of one file: `lines`
collects every line (rewritten or not) in order, `num_changed_lines`
counts the matches. -/
def mainLoop (version : List Char) (acc : List (List Char) × Nat) :
    List (List Char) → List (List Char) × Nat
  | [] => acc
  | line :: rest =>
    match directiveMatch line with
    | some (b, a) => mainLoop version (acc.1 ++ [b ++ version ++ a], acc.2 + 1) rest
    | none => mainLoop version (acc.1 ++ [line], acc.2) rest

/-- Process all lines of one file, starting from the empty accumulator and
zero `num_changed_lines`, as `main` does. -/
def processLines (version : List Char) (lines : List (List Char)) :
    List (List Char) × Nat :=
  mainLoop version ([], 0) lines

/-- Split file content into lines the way the Python text-file iteration
does: each line keeps its terminating newline; a final fragment without a
newline is still yielded; no empty trailing line is produced.  `acc` holds
the characters of the current line in reverse. -/
def splitLinesAux (acc : List Char) : List Char → List (List Char)
  | [] => if acc = [] then [] else [acc.reverse]
  | c :: cs =>
    if c = '\n' then (acc.reverse ++ ['\n']) :: splitLinesAux [] cs
    else splitLinesAux (c :: acc) cs

/-- Split file content into kept-newline lines. -/
def splitLines (content : List Char) : List (List Char) :=
  splitLinesAux [] content

/-- The per-file behaviour of `main`: `some newContent` when the file is
overwritten (that is, when `num_changed_lines` is nonzero, in which case
the accumulated lines are written back with `file.writelines`), `none`
when no write occurs. -/
def fileWrite (version content : List Char) : Option (List Char) :=
  let r := processLines version (splitLines content)
  if r.2 ≠ 0 then some r.1.flatten else none

/-- The content of the file after `main` has processed it: the written
lines when a write occurs, the untouched original content otherwise. -/
def runFile (version content : List Char) : List Char :=
  match fileWrite version content with
  | some out => out
  | none => content

/-- The `num_changed_lines` counter `main` computes for one file. -/
def changedCount (version content : List Char) : Nat :=
  (processLines version (splitLines content)).2

/-- The directive grammar as the specification states it (spec section 4.4,
claim wording): optional leading whitespace, a directive opener (two dots
plus whitespace), one of the five directive names, the `::` marker with
optional surrounding whitespace, the literal sentinel `next`, then the
remainder of the line captured verbatim.  `b` is the captured `before`
group and `a` the captured `after` group. -/
def SpecGrammar (line b a : List Char) : Prop :=
  ∃ s0 s1 name s2 s3 : List Char,
    (∀ c ∈ s0, isSpace c = true) ∧
    (∀ c ∈ s1, isSpace c = true) ∧ s1 ≠ [] ∧
    (name = "versionadded".toList ∨ name = "versionchanged".toList ∨
      name = "versionremoved".toList ∨ name = "deprecated".toList ∨
      name = "deprecated-removed".toList) ∧
    (∀ c ∈ s2, isSpace c = true) ∧
    (∀ c ∈ s3, isSpace c = true) ∧
    b = s0 ++ '.' :: '.' :: (s1 ++ name ++ s2 ++ ':' :: ':' :: s3) ∧
    line = b ++ "next".toList ++ a

/-- Wellformedness of a list of lines as produced by Python text-file
iteration: each line is newline-free content followed by one final newline,
except that the last line may instead be nonempty newline-free content
(a file that does not end in a newline). -/
def wfLines : List (List Char) → Prop
  | [] => True
  | l :: ls =>
    (∃ m, '\n' ∉ m ∧ (l = m ++ ['\n'] ∨ (ls = [] ∧ l = m ∧ m ≠ []))) ∧ wfLines ls

/-- Modelled from the spec: the `release.py` Tag pre-release qualifier is
not part of src/ (only the tests import it), so it is modelled from spec
section 4.1: none (final), alpha, beta, or release candidate, the last
three carrying a numeric serial. -/
inductive PreLevel where
  | alpha (serial : Nat)
  | beta (serial : Nat)
  | rc (serial : Nat)
  | final
deriving DecidableEq

/-- Modelled from the spec: a Tag decomposes into the release series
(major.minor.micro) and the pre-release qualifier with its serial
(spec section 3, Data model). -/
structure Tag where
  major : Nat
  minor : Nat
  micro : Nat
  level : PreLevel
deriving DecidableEq

/-- Decimal digit character of a digit value below ten. -/
def digitChar : Nat → Char
  | 0 => '0'
  | 1 => '1'
  | 2 => '2'
  | 3 => '3'
  | 4 => '4'
  | 5 => '5'
  | 6 => '6'
  | 7 => '7'
  | 8 => '8'
  | 9 => '9'
  | _ => '*'

/-- Numeric value of a decimal digit character. -/
def digitVal (c : Char) : Nat := c.toNat - '0'.toNat

/-- Fuel-driven most-significant-first decimal rendering; the fuel bounds
the recursion depth and any fuel at least `n` is enough. -/
def natToCharsAux : Nat → Nat → List Char
  | 0, _ => []
  | fuel + 1, n =>
    if n = 0 then [] else natToCharsAux fuel (n / 10) ++ [digitChar (n % 10)]

/-- Decimal rendering of a natural number (minimal digits, `0` for zero). -/
def natToChars (n : Nat) : List Char :=
  if n = 0 then ['0'] else natToCharsAux n n

/-- Value of a most-significant-first decimal digit string. -/
def charsToNat (ds : List Char) : Nat :=
  ds.foldl (fun r c => 10 * r + digitVal c) 0

/-- Read a maximal run of decimal digits from the front of `l`, returning
its value and the rest; `none` when there is no leading digit. -/
def readNat (l : List Char) : Option (Nat × List Char) :=
  if l.takeWhile Char.isDigit = [] then none
  else some (charsToNat (l.takeWhile Char.isDigit), l.dropWhile Char.isDigit)

/-- Textual suffix of the pre-release qualifier: `aN`, `bN`, `rcN`, or
nothing for a final release. -/
def levelSuffix : PreLevel → List Char
  | .alpha n => 'a' :: natToChars n
  | .beta n => 'b' :: natToChars n
  | .rc n => 'r' :: 'c' :: natToChars n
  | .final => []

/-- Modelled from the spec: the textual form of a Tag,
`X.Y.Z` plus the qualifier suffix (spec section 4.1 version grammar). -/
def tagToString (t : Tag) : List Char :=
  natToChars t.major ++ '.' :: (natToChars t.minor ++ '.' ::
    (natToChars t.micro ++ levelSuffix t.level))

/-- Read the trailing numeric serial of a pre-release qualifier: the rest
of the string must be exactly a digit run. -/
def readSerial (k : Nat → PreLevel) (ma mi mc : Nat) (r : List Char) : Option Tag :=
  match readNat r with
  | some (n, []) => some ⟨ma, mi, mc, k n⟩
  | _ => none

/-- Modelled from the spec: parse the version grammar `X.Y.ZaN`, `X.Y.ZbN`,
`X.Y.ZrcN`, or `X.Y.Z` (spec section 4.1); `none` is the ParseError case. -/
def parseTag (s : List Char) : Option Tag :=
  match readNat s with
  | some (ma, '.' :: r2) =>
    match readNat r2 with
    | some (mi, '.' :: r4) =>
      match readNat r4 with
      | some (mc, r5) =>
        match r5 with
        | [] => some ⟨ma, mi, mc, PreLevel.final⟩
        | 'a' :: r6 => readSerial PreLevel.alpha ma mi mc r6
        | 'b' :: r6 => readSerial PreLevel.beta ma mi mc r6
        | 'r' :: 'c' :: r6 => readSerial PreLevel.rc ma mi mc r6
        | _ => none
      | none => none
    | _ => none
  | _ => none

/-- Rank of the pre-release qualifier realising the ordering
alpha < beta < release candidate < final (spec section 3 invariant). -/
def levelRank : PreLevel → Nat
  | .alpha _ => 0
  | .beta _ => 1
  | .rc _ => 2
  | .final => 3

/-- Numeric serial of the qualifier (zero for final). -/
def levelSerial : PreLevel → Nat
  | .alpha n => n
  | .beta n => n
  | .rc n => n
  | .final => 0

/-- Modelled from the spec: strict ordering of tags, lexicographic on the
series, then on the qualifier rank (alpha < beta < rc < final), then on the
serial. -/
def tagLt (t1 t2 : Tag) : Prop :=
  t1.major < t2.major ∨ (t1.major = t2.major ∧
    (t1.minor < t2.minor ∨ (t1.minor = t2.minor ∧
      (t1.micro < t2.micro ∨ (t1.micro = t2.micro ∧
        (levelRank t1.level < levelRank t2.level ∨
          (levelRank t1.level = levelRank t2.level ∧
            levelSerial t1.level < levelSerial t2.level)))))))

/-- Modelled from the spec: the release state record (the ReleaseShelf of
the tests) as consumed by `check_doc_unreleased_version`: the release Tag,
and the readable files of the working tree as an association of names to
extracted textual content (standing for the docs directory, the tarball
and its `index.html` member). -/
structure ReleaseState where
  tag : Tag
  files : List (List Char × List Char)

/-- Look a file name up in the working-tree association list. -/
def lookupFile : List (List Char × List Char) → List Char → Option (List Char)
  | [], _ => none
  | (n, c) :: rest, key => if n = key then some c else lookupFile rest key

/-- Modelled from the spec: the deterministic docs archive name
`python-<tag>-docs-html.tar.bz2` (spec section 4.2). -/
def docsArchiveName (t : Tag) : List Char :=
  "python-".toList ++ tagToString t ++ "-docs-html.tar.bz2".toList

/-- Modelled from the spec: the unreleased marker embedding the exact
current tag, `New in <tag> (unreleased)` (spec section 4.3). -/
def unreleasedMarker (t : Tag) : List Char :=
  "New in ".toList ++ tagToString t ++ " (unreleased)".toList

/-- Test whether `pat` occurs literally at the front of `l`. -/
def startsWithSeq (pat l : List Char) : Bool :=
  match dropSeq pat l with
  | some _ => true
  | none => false

/-- Test whether `pat` occurs as a contiguous subsequence of `l`. -/
def containsSeq (pat : List Char) : List Char → Bool
  | [] => startsWithSeq pat []
  | c :: cs => startsWithSeq pat (c :: cs) || containsSeq pat cs

/-- Whether the tag is an alpha pre-release (the source exempts exactly
alpha releases from the unreleased-doc check). -/
def isAlphaRelease (t : Tag) : Bool :=
  match t.level with
  | .alpha _ => true
  | _ => false

/-- Outcome of one validation check. -/
inductive CheckResult where
  | passed
  | assertionFailure
deriving DecidableEq

/-- Modelled from the spec: `run_release.check_doc_unreleased_version` is
not under src/ (only its tests are), so it is modelled from spec sections
4.2-4.3 and the behaviour its tests exercise: alpha tags are exempt
(no-op); otherwise the deterministically named docs archive must be
present, its absence being an assertion-style precondition failure; the
archive front page is scanned for the unreleased marker embedding the
exact current tag; if the marker is found the operator is prompted exactly
once and only the answer `yes` lets the check pass, any other answer is an
assertion failure; if the marker is absent the check passes without
prompting.  The second component counts the prompts consumed from the
answer stream. -/
def check_doc_unreleased_version (st : ReleaseState) (answers : List (List Char)) :
    CheckResult × Nat :=
  if isAlphaRelease st.tag then (CheckResult.passed, 0)
  else
    match lookupFile st.files (docsArchiveName st.tag) with
    | none => (CheckResult.assertionFailure, 0)
    | some content =>
      if containsSeq (unreleasedMarker st.tag) content then
        match answers with
        | [] => (CheckResult.assertionFailure, 0)
        | ans :: _ =>
          if ans = "yes".toList then (CheckResult.passed, 1)
          else (CheckResult.assertionFailure, 1)
      else (CheckResult.passed, 0)

lemma mem_directiveNames_iff {name : List Char} :
    name ∈ directiveNames ↔
      (name = "versionadded".toList ∨ name = "versionchanged".toList ∨
        name = "versionremoved".toList ∨ name = "deprecated".toList ∨
        name = "deprecated-removed".toList) := by
  simp [directiveNames]
  tauto

lemma dropSeq_sound {p : List Char} : ∀ {l r : List Char}, dropSeq p l = some r → l = p ++ r := by
  induction p with
  | nil =>
    intro l r h
    simp [dropSeq] at h
    simp [h]
  | cons x xs ih =>
    intro l r h
    cases l with
    | nil => simp [dropSeq] at h
    | cons c cs =>
      simp only [dropSeq] at h
      split at h
      next hcx =>
        subst hcx
        simpa using ih h
      next => exact absurd h (by simp)

lemma dropSeq_self : ∀ (p r : List Char), dropSeq p (p ++ r) = some r := by
  intro p r
  induction p with
  | nil => simp [dropSeq]
  | cons x xs ih => simpa [dropSeq] using ih

lemma matchName_sound : ∀ {ns : List (List Char)} {l nm r : List Char},
    matchName ns l = some (nm, r) → nm ∈ ns ∧ l = nm ++ r := by
  intro ns
  induction ns with
  | nil => intro l nm r h; simp [matchName] at h
  | cons n ns ih =>
    intro l nm r h
    simp only [matchName] at h
    cases hd : dropSeq n l with
    | some r2 =>
      rw [hd] at h
      simp at h
      rcases h with ⟨hn, hr⟩
      subst hn; subst hr
      exact ⟨List.mem_cons_self _ _, dropSeq_sound hd⟩
    | none =>
      rw [hd] at h
      rcases ih h with ⟨hmem, hl⟩
      exact ⟨List.mem_cons_of_mem _ hmem, hl⟩

lemma ne_of_isSpace {c x : Char} (h : isSpace c = true) (hx : isSpace x = false) : c ≠ x := by
  intro he
  rw [he, hx] at h
  exact Bool.false_ne_true h

lemma all_space_takeWhile {s : List Char} (hs : ∀ c ∈ s, isSpace c = true) (t : List Char) :
    (s ++ t).takeWhile isSpace = s ++ t.takeWhile isSpace := by
  induction s with
  | nil => simp
  | cons x xs ih =>
    have hx : isSpace x = true := hs x (List.mem_cons_self _ _)
    simp [List.takeWhile_cons, hx, ih (fun c hc => hs c (List.mem_cons_of_mem _ hc))]

lemma all_space_dropWhile {s : List Char} (hs : ∀ c ∈ s, isSpace c = true) (t : List Char) :
    (s ++ t).dropWhile isSpace = t.dropWhile isSpace := by
  induction s with
  | nil => simp
  | cons x xs ih =>
    have hx : isSpace x = true := hs x (List.mem_cons_self _ _)
    simp [List.dropWhile_cons, hx, ih (fun c hc => hs c (List.mem_cons_of_mem _ hc))]

lemma cons_not_space_takeWhile {c : Char} (hc : isSpace c = false) (r : List Char) :
    (c :: r).takeWhile isSpace = [] := by
  simp [List.takeWhile_cons, hc]

lemma cons_not_space_dropWhile {c : Char} (hc : isSpace c = false) (r : List Char) :
    (c :: r).dropWhile isSpace = c :: r := by
  simp [List.dropWhile_cons, hc]

lemma directiveNames_head {name : List Char} (h : name ∈ directiveNames) :
    ∃ nh nt, name = nh :: nt ∧ isSpace nh = false := by
  rcases mem_directiveNames_iff.mp h with h | h | h | h | h <;> subst h
  · exact ⟨'v', "ersionadded".toList, rfl, by decide⟩
  · exact ⟨'v', "ersionchanged".toList, rfl, by decide⟩
  · exact ⟨'v', "ersionremoved".toList, rfl, by decide⟩
  · exact ⟨'d', "eprecated".toList, rfl, by decide⟩
  · exact ⟨'d', "eprecated-removed".toList, rfl, by decide⟩

lemma matchName_complete {name s2 u : List Char} (hname : name ∈ directiveNames)
    (h2 : ∀ c ∈ s2, isSpace c = true) :
    matchName directiveNames (name ++ (s2 ++ ':' :: ':' :: u)) =
      some (name, s2 ++ ':' :: ':' :: u) := by
  have hfail : dropSeq "deprecated-removed".toList
      ("deprecated".toList ++ (s2 ++ ':' :: ':' :: u)) = none := by
    have hstep : dropSeq "deprecated-removed".toList
        ("deprecated".toList ++ (s2 ++ ':' :: ':' :: u)) =
        dropSeq "-removed".toList (s2 ++ ':' :: ':' :: u) := rfl
    rw [hstep]
    cases s2 with
    | nil => rfl
    | cons c cs =>
      have hc : isSpace c = true := h2 c (List.mem_cons_self _ _)
      have hcne : c ≠ '-' := ne_of_isSpace hc (by decide)
      simp only [List.cons_append, dropSeq]
      rw [if_neg hcne]
  rcases mem_directiveNames_iff.mp hname with h | h | h | h | h <;> subst h
  · show matchName directiveNames ("versionadded".toList ++ _) = _
    simp only [matchName, directiveNames, dropSeq_self]
  · show matchName directiveNames ("versionchanged".toList ++ _) = _
    have h1 : ∀ R : List Char,
        dropSeq "versionadded".toList ("versionchanged".toList ++ R) = none := fun _ => rfl
    simp only [matchName, directiveNames, h1, dropSeq_self]
  · show matchName directiveNames ("versionremoved".toList ++ _) = _
    have h1 : ∀ R : List Char,
        dropSeq "versionadded".toList ("versionremoved".toList ++ R) = none := fun _ => rfl
    have h2x : ∀ R : List Char,
        dropSeq "versionchanged".toList ("versionremoved".toList ++ R) = none := fun _ => rfl
    simp only [matchName, directiveNames, h1, h2x, dropSeq_self]
  · show matchName directiveNames ("deprecated".toList ++ _) = _
    have h1 : ∀ R : List Char,
        dropSeq "versionadded".toList ("deprecated".toList ++ R) = none := fun _ => rfl
    have h2x : ∀ R : List Char,
        dropSeq "versionchanged".toList ("deprecated".toList ++ R) = none := fun _ => rfl
    have h3 : ∀ R : List Char,
        dropSeq "versionremoved".toList ("deprecated".toList ++ R) = none := fun _ => rfl
    simp only [matchName, directiveNames, h1, h2x, h3, hfail, dropSeq_self]
  · show matchName directiveNames ("deprecated-removed".toList ++ _) = _
    have h1 : ∀ R : List Char,
        dropSeq "versionadded".toList ("deprecated-removed".toList ++ R) = none := fun _ => rfl
    have h2x : ∀ R : List Char,
        dropSeq "versionchanged".toList ("deprecated-removed".toList ++ R) = none := fun _ => rfl
    have h3 : ∀ R : List Char,
        dropSeq "versionremoved".toList ("deprecated-removed".toList ++ R) = none := fun _ => rfl
    simp only [matchName, directiveNames, h1, h2x, h3, dropSeq_self]

lemma directiveMatch_run_some {s0 s1 name s2 u r7 : List Char}
    (h0 : ∀ c ∈ s0, isSpace c = true)
    (h1 : ∀ c ∈ s1, isSpace c = true) (h1n : s1 ≠ [])
    (hname : name ∈ directiveNames)
    (h2 : ∀ c ∈ s2, isSpace c = true)
    (hnext : dropSeq "next".toList (u.dropWhile isSpace) = some r7) :
    directiveMatch (s0 ++ '.' :: '.' :: (s1 ++ name ++ s2 ++ ':' :: ':' :: u)) =
      some (s0 ++ '.' :: '.' :: (s1 ++ name ++ s2 ++ ':' :: ':' :: u.takeWhile isSpace), r7) := by
  obtain ⟨nh, nt, hn, hnh⟩ := directiveNames_head hname
  have hmn := matchName_complete (u := u) hname h2
  subst hn
  simp only [List.cons_append, List.append_assoc] at hmn ⊢
  simp only [directiveMatch, all_space_takeWhile h0, all_space_dropWhile h0,
    cons_not_space_takeWhile (show isSpace '.' = false by decide),
    cons_not_space_dropWhile (show isSpace '.' = false by decide),
    List.append_nil, all_space_takeWhile h1, all_space_dropWhile h1,
    cons_not_space_takeWhile hnh, cons_not_space_dropWhile hnh,
    if_neg h1n, hmn, all_space_takeWhile h2, all_space_dropWhile h2,
    cons_not_space_takeWhile (show isSpace ':' = false by decide),
    cons_not_space_dropWhile (show isSpace ':' = false by decide),
    hnext, List.cons_append, List.append_assoc]

lemma directiveMatch_run_none {s0 s1 name s2 u : List Char}
    (h0 : ∀ c ∈ s0, isSpace c = true)
    (h1 : ∀ c ∈ s1, isSpace c = true) (h1n : s1 ≠ [])
    (hname : name ∈ directiveNames)
    (h2 : ∀ c ∈ s2, isSpace c = true)
    (hnext : dropSeq "next".toList (u.dropWhile isSpace) = none) :
    directiveMatch (s0 ++ '.' :: '.' :: (s1 ++ name ++ s2 ++ ':' :: ':' :: u)) = none := by
  obtain ⟨nh, nt, hn, hnh⟩ := directiveNames_head hname
  have hmn := matchName_complete (u := u) hname h2
  subst hn
  simp only [List.cons_append, List.append_assoc] at hmn ⊢
  simp only [directiveMatch, all_space_takeWhile h0, all_space_dropWhile h0,
    cons_not_space_takeWhile (show isSpace '.' = false by decide),
    cons_not_space_dropWhile (show isSpace '.' = false by decide),
    List.append_nil, all_space_takeWhile h1, all_space_dropWhile h1,
    cons_not_space_takeWhile hnh, cons_not_space_dropWhile hnh,
    if_neg h1n, hmn, all_space_takeWhile h2, all_space_dropWhile h2,
    cons_not_space_takeWhile (show isSpace ':' = false by decide),
    cons_not_space_dropWhile (show isSpace ':' = false by decide),
    hnext, List.cons_append, List.append_assoc]

lemma directiveMatch_sound {line b a : List Char} (h : directiveMatch line = some (b, a)) :
    SpecGrammar line b a := by
  simp only [directiveMatch] at h
  split at h
  case h_2 => exact absurd h (by simp)
  case h_1 r1 heq1 =>
    split at h
    case isTrue => exact absurd h (by simp)
    case isFalse h1n =>
      split at h
      case h_1 => exact absurd h (by simp)
      case h_2 name r3 heq2 =>
        split at h
        case h_2 => exact absurd h (by simp)
        case h_1 r5 heq3 =>
          split at h
          case h_1 => exact absurd h (by simp)
          case h_2 r7 heq4 =>
            obtain ⟨hmem, hr2⟩ := matchName_sound heq2
            have hba := Option.some.inj h
            have hb : b = line.takeWhile isSpace ++ '.' :: '.' ::
                (r1.takeWhile isSpace ++ name ++ r3.takeWhile isSpace ++
                  ':' :: ':' :: r5.takeWhile isSpace) := (congrArg Prod.fst hba).symm
            have ha : a = r7 := (congrArg Prod.snd hba).symm
            refine ⟨line.takeWhile isSpace, r1.takeWhile isSpace, name,
              r3.takeWhile isSpace, r5.takeWhile isSpace,
              fun c hc => List.mem_takeWhile_imp hc,
              fun c hc => List.mem_takeWhile_imp hc, h1n,
              mem_directiveNames_iff.mp hmem,
              fun c hc => List.mem_takeWhile_imp hc,
              fun c hc => List.mem_takeWhile_imp hc, hb, ?_⟩
            have e0 : line = line.takeWhile isSpace ++ ('.' :: '.' :: r1) := by
              rw [← heq1, List.takeWhile_append_dropWhile]
            have e1 : r1 = r1.takeWhile isSpace ++ (name ++ r3) := by
              rw [← hr2, List.takeWhile_append_dropWhile]
            have e2 : r3 = r3.takeWhile isSpace ++ (':' :: ':' :: r5) := by
              rw [← heq3, List.takeWhile_append_dropWhile]
            have e3 : r5 = r5.takeWhile isSpace ++ ("next".toList ++ r7) := by
              rw [← dropSeq_sound heq4, List.takeWhile_append_dropWhile]
            rw [hb, ha]
            conv =>
              lhs
              rw [e0, e1, e2, e3]
            simp [List.cons_append, List.append_assoc]

lemma directiveMatch_complete {line b a : List Char} (h : SpecGrammar line b a) :
    directiveMatch line = some (b, a) := by
  obtain ⟨s0, s1, name, s2, s3, h0, h1, h1n, hname, h2, h3, hb, hline⟩ := h
  have hname2 : name ∈ directiveNames := mem_directiveNames_iff.mpr hname
  have hdw : ("next".toList ++ a).dropWhile isSpace = "next".toList ++ a := by
    have : "next".toList ++ a = 'n' :: ("ext".toList ++ a) := rfl
    rw [this, cons_not_space_dropWhile (by decide)]
  have htw : ("next".toList ++ a).takeWhile isSpace = [] := by
    have : "next".toList ++ a = 'n' :: ("ext".toList ++ a) := rfl
    rw [this, cons_not_space_takeWhile (by decide)]
  have hnext : dropSeq "next".toList
      ((s3 ++ ("next".toList ++ a)).dropWhile isSpace) = some a := by
    rw [all_space_dropWhile h3, hdw]
    exact dropSeq_self _ _
  have hrun := directiveMatch_run_some h0 h1 h1n hname2 h2 hnext
  rw [all_space_takeWhile h3, htw, List.append_nil] at hrun
  have harg : line = s0 ++ '.' :: '.' :: (s1 ++ name ++ s2 ++ ':' :: ':' ::
      (s3 ++ ("next".toList ++ a))) := by
    rw [hline, hb]
    simp [List.cons_append, List.append_assoc]
  rw [harg, hrun, hb]

lemma processLine_of_some {v l b a : List Char} (h : directiveMatch l = some (b, a)) :
    processLine v l = b ++ v ++ a := by
  simp [processLine, h]

lemma processLine_of_none {v l : List Char} (h : directiveMatch l = none) :
    processLine v l = l := by
  simp [processLine, h]

lemma mainLoop_eq (v : List Char) (ls : List (List Char)) :
    ∀ acc : List (List Char) × Nat,
      mainLoop v acc ls =
        (acc.1 ++ ls.map (processLine v),
          acc.2 + ls.countP (fun l => (directiveMatch l).isSome)) := by
  induction ls with
  | nil => intro acc; simp [mainLoop]
  | cons l rest ih =>
    intro acc
    cases hm : directiveMatch l with
    | some ba =>
      obtain ⟨b, a⟩ := ba
      simp only [mainLoop, hm, ih]
      simp [processLine_of_some hm, List.countP_cons, hm, Prod.mk.injEq, List.append_assoc]
      try omega
    | none =>
      simp only [mainLoop, hm, ih]
      simp [processLine_of_none hm, List.countP_cons, hm, Prod.mk.injEq, List.append_assoc]
      try omega

lemma processLines_eq (v : List Char) (ls : List (List Char)) :
    processLines v ls =
      (ls.map (processLine v), ls.countP (fun l => (directiveMatch l).isSome)) := by
  rw [processLines, mainLoop_eq]
  simp

/-- C1: a line is rewritten exactly when the whole line matches the directive
grammar (optional leading whitespace, directive opener of two dots plus
whitespace, one of the five directive names, the `::` marker with optional
surrounding whitespace, the sentinel `next`, then the remainder), and the
rewritten line is the captured before-group, then the target version, then
the captured remainder; in particular `.. versionchanged:: next\n` with
target `3.13` becomes `.. versionchanged:: 3.13\n`, and a line with a
non-matching directive name such as `.. note:: next` is never rewritten. -/
theorem line_rewritten_iff_grammar (version line : List Char) :
    (∀ b a : List Char, directiveMatch line = some (b, a) ↔ SpecGrammar line b a) ∧
    (∀ b a : List Char, directiveMatch line = some (b, a) →
        processLine version line = b ++ version ++ a) ∧
    (directiveMatch line = none → processLine version line = line) ∧
    processLine "3.13".toList ".. versionchanged:: next\n".toList
      = ".. versionchanged:: 3.13\n".toList ∧
    processLine version ".. note:: next".toList = ".. note:: next".toList := by
  exact ⟨fun b a => ⟨directiveMatch_sound, directiveMatch_complete⟩,
    fun b a h => processLine_of_some h,
    fun h => processLine_of_none h,
    by decide,
    processLine_of_none (by decide)⟩

theorem line_rewritten_iff_grammar_witness :
    directiveMatch ".. versionadded:: next\n".toList
        = some (".. versionadded:: ".toList, "\n".toList) ∧
    processLine "3.14".toList ".. versionadded:: next\n".toList
        = ".. versionadded:: ".toList ++ "3.14".toList ++ "\n".toList ∧
    SpecGrammar ".. versionadded:: next\n".toList ".. versionadded:: ".toList "\n".toList := by
  have h := line_rewritten_iff_grammar "3.14".toList ".. versionadded:: next\n".toList
  have hm : directiveMatch ".. versionadded:: next\n".toList
      = some (".. versionadded:: ".toList, "\n".toList) := by decide
  exact ⟨hm, h.2.1 _ _ hm, (h.1 _ _).mp hm⟩

/-- C2 counterexample: the code rewrites a line whose version field merely
begins with `next`: with target `3.13`, the line
`.. versionchanged:: nextgen\n` becomes `.. versionchanged:: 3.13gen\n`
(and is counted as a changed line), contradicting the claim that such a
line is not rewritten. -/
theorem nextgen_rewritten_counterexample :
    processLine "3.13".toList ".. versionchanged:: nextgen\n".toList
        = ".. versionchanged:: 3.13gen\n".toList ∧
    processLine "3.13".toList ".. versionchanged:: nextgen\n".toList
        ≠ ".. versionchanged:: nextgen\n".toList ∧
    changedCount "3.13".toList ".. versionchanged:: nextgen\n".toList = 1 := by
  exact ⟨by decide, by decide, by decide⟩

/-- C2 amended: eligibility requires only that the literal token `next`
immediately follow the `::` separator and its optional whitespace; whatever
follows `next` (even letters, as in `nextgen`) is captured in the remainder
and preserved, so the line is rewritten to before-group + version +
remainder. -/
theorem next_matched_as_literal (version rest : List Char) :
    directiveMatch (".. versionchanged:: next".toList ++ rest)
        = some (".. versionchanged:: ".toList, rest) ∧
    processLine version (".. versionchanged:: next".toList ++ rest)
        = ".. versionchanged:: ".toList ++ version ++ rest := by
  have hm : directiveMatch (".. versionchanged:: next".toList ++ rest)
      = some (".. versionchanged:: ".toList, rest) := by
    refine directiveMatch_complete ⟨[], [' '], "versionchanged".toList, [], [' '],
      by simp, by decide, by decide, Or.inr (Or.inl rfl), by simp, by decide, by decide, ?_⟩
    have hsplit : ".. versionchanged:: next".toList
        = ".. versionchanged:: ".toList ++ "next".toList := by decide
    rw [hsplit, List.append_assoc]
  exact ⟨hm, processLine_of_some hm⟩

/-- C3: for `deprecated-removed` only the first argument position, the token
immediately following `::`, is substituted; everything after it (a second
version argument included) is preserved verbatim:
`.. deprecated-removed:: next, 3.15\n` with target `3.13` becomes
`.. deprecated-removed:: 3.13, 3.15\n`. -/
theorem deprecated_removed_first_argument (version rest : List Char) :
    directiveMatch (".. deprecated-removed:: next".toList ++ rest)
        = some (".. deprecated-removed:: ".toList, rest) ∧
    processLine version (".. deprecated-removed:: next".toList ++ rest)
        = ".. deprecated-removed:: ".toList ++ version ++ rest ∧
    processLine "3.13".toList ".. deprecated-removed:: next, 3.15\n".toList
        = ".. deprecated-removed:: 3.13, 3.15\n".toList := by
  have hm : directiveMatch (".. deprecated-removed:: next".toList ++ rest)
      = some (".. deprecated-removed:: ".toList, rest) := by
    refine directiveMatch_complete ⟨[], [' '], "deprecated-removed".toList, [], [' '],
      by simp, by decide, by decide, Or.inr (Or.inr (Or.inr (Or.inr rfl))),
      by simp, by decide, by decide, ?_⟩
    have hsplit : ".. deprecated-removed:: next".toList
        = ".. deprecated-removed:: ".toList ++ "next".toList := by decide
    rw [hsplit, List.append_assoc]
  exact ⟨hm, processLine_of_some hm, by decide⟩

/-- C10: the rewriter emits exactly one output line per input line, in the
original order: the accumulated output is the pointwise image of the input
lines under the per-line rewrite, its length equals the input length, and
any line that does not match the directive grammar reappears unchanged at
its original position. -/
theorem one_output_line_per_input (version : List Char) (lines : List (List Char)) :
    (processLines version lines).1 = lines.map (processLine version) ∧
    (processLines version lines).1.length = lines.length ∧
    (∀ (i : Nat) (line : List Char), lines[i]? = some line →
      directiveMatch line = none → (processLines version lines).1[i]? = some line) := by
  rw [processLines_eq]
  refine ⟨rfl, by simp, ?_⟩
  intro i line hi hnone
  simp only [List.getElem?_map, hi, Option.map_some]
  simp [processLine, hnone]

theorem one_output_line_per_input_witness :
    (processLines "3.13".toList ["text\n".toList, ".. versionadded:: next\n".toList]).1[0]?
      = some "text\n".toList :=
  (one_output_line_per_input "3.13".toList
    ["text\n".toList, ".. versionadded:: next\n".toList]).2.2 0 "text\n".toList
    (by decide) (by decide)

/-- C5: when zero lines of a file match the directive grammar no write
occurs and the file content is left byte-identical; a write occurs only
when at least one line matched, and then the file is overwritten in full
with the accumulated lines. -/
theorem no_write_without_match (version content : List Char) :
    ((∀ l ∈ splitLines content, directiveMatch l = none) →
        fileWrite version content = none ∧ runFile version content = content) ∧
    (∀ out, fileWrite version content = some out →
        (∃ l ∈ splitLines content, (directiveMatch l).isSome = true) ∧
        out = ((splitLines content).map (processLine version)).flatten) := by
  constructor
  · intro h
    have hc : (splitLines content).countP (fun l => (directiveMatch l).isSome) = 0 := by
      rw [List.countP_eq_zero]
      intro l hl
      simp [h l hl]
    have hw : fileWrite version content = none := by
      rw [fileWrite, processLines_eq]
      simp [hc]
    exact ⟨hw, by rw [runFile, hw]⟩
  · intro out hout
    rw [fileWrite, processLines_eq] at hout
    simp only [ne_eq, ite_not] at hout
    by_cases hc : (splitLines content).countP (fun l => (directiveMatch l).isSome) = 0
    · simp [hc] at hout
    · refine ⟨?_, ?_⟩
      · by_contra hno
        push_neg at hno
        exact hc (List.countP_eq_zero.mpr (fun l hl => by simp [hno l hl]))
      · simp [hc] at hout
        exact hout.symm

theorem no_write_without_match_witness :
    fileWrite "3.13".toList "hello\nworld\n".toList = none ∧
    runFile "3.13".toList "hello\nworld\n".toList = "hello\nworld\n".toList :=
  (no_write_without_match "3.13".toList "hello\nworld\n".toList).1 (by decide)

example :
    processLine "3.13".toList ".. versionchanged:: next\n".toList
      = ".. versionchanged:: 3.13\n".toList := by decide

example :
    processLine "3.13".toList ".. note:: next\n".toList
      = ".. note:: next\n".toList := by decide

example :
    processLine "3.13".toList ".. deprecated-removed:: next, 3.15\n".toList
      = ".. deprecated-removed:: 3.13, 3.15\n".toList := by decide

example :
    processLine "3.13".toList ".. versionchanged:: nextgen\n".toList
      = ".. versionchanged:: 3.13gen\n".toList := by decide

example :
    runFile "3.13".toList "text\n.. versionadded:: next\nmore\n".toList
      = "text\n.. versionadded:: 3.13\nmore\n".toList := by decide

example : fileWrite "3.13".toList "plain text\n".toList = none := by decide

lemma splitLinesAux_wf : ∀ (t acc : List Char), '\n' ∉ acc → wfLines (splitLinesAux acc t) := by
  intro t
  induction t with
  | nil =>
    intro acc hacc
    by_cases h : acc = []
    · simp [splitLinesAux, h, wfLines]
    · simp only [splitLinesAux, if_neg h]
      refine ⟨⟨acc.reverse, by simpa using hacc, Or.inr ⟨rfl, rfl, ?_⟩⟩, trivial⟩
      simpa [List.reverse_eq_nil_iff] using h
  | cons c cs ih =>
    intro acc hacc
    by_cases hc : c = '\n'
    · subst hc
      simp only [splitLinesAux, if_pos rfl]
      exact ⟨⟨acc.reverse, by simpa using hacc, Or.inl rfl⟩, ih [] (by simp)⟩
    · simp only [splitLinesAux, if_neg hc]
      refine ih (c :: acc) ?_
      intro hmem
      rcases List.mem_cons.mp hmem with h | h
      · exact hc h.symm
      · exact hacc h

lemma splitLinesAux_newline :
    ∀ (m acc t : List Char), '\n' ∉ m →
      splitLinesAux acc (m ++ '\n' :: t) =
        (acc.reverse ++ (m ++ ['\n'])) :: splitLinesAux [] t := by
  intro m
  induction m with
  | nil =>
    intro acc t _
    simp [splitLinesAux]
  | cons c m ih =>
    intro acc t hm
    have hc : ¬(c = '\n') := fun h => hm (by simp [h])
    have hm2 : '\n' ∉ m := fun h => hm (List.mem_cons_of_mem _ h)
    simp only [List.cons_append, splitLinesAux, if_neg hc, List.append_eq]
    rw [ih (c :: acc) t hm2]
    simp

lemma splitLinesAux_no_newline :
    ∀ (m acc : List Char), '\n' ∉ m → m ≠ [] →
      splitLinesAux acc m = [acc.reverse ++ m] := by
  intro m
  induction m with
  | nil => intro acc _ h; exact absurd rfl h
  | cons c m ih =>
    intro acc hm _
    have hc : ¬(c = '\n') := fun h => hm (by simp [h])
    have hm2 : '\n' ∉ m := fun h => hm (List.mem_cons_of_mem _ h)
    by_cases hmn : m = []
    · subst hmn
      simp [splitLinesAux, hc]
    · simp only [splitLinesAux, if_neg hc]
      rw [ih (c :: acc) hm2 hmn]
      simp

lemma splitLines_flatten : ∀ ls : List (List Char), wfLines ls → splitLines ls.flatten = ls := by
  intro ls
  induction ls with
  | nil => intro _; rfl
  | cons l ls ih =>
    intro hwf
    obtain ⟨⟨m, hm, hcase⟩, hrest⟩ := hwf
    rcases hcase with hl | ⟨hls, hl, hne⟩
    · subst hl
      rw [List.flatten_cons, splitLines,
        show (m ++ ['\n']) ++ ls.flatten = m ++ '\n' :: ls.flatten by simp,
        splitLinesAux_newline m [] _ hm]
      rw [show splitLinesAux [] ls.flatten = splitLines ls.flatten from rfl, ih hrest]
      simp
    · subst hls
      subst hl
      simp only [List.flatten_cons, List.flatten_nil, List.append_nil]
      rw [splitLines, splitLinesAux_no_newline l [] hm hne]
      simp

lemma directiveMatch_line_split {l b a : List Char} (h : directiveMatch l = some (b, a)) :
    l = b ++ "next".toList ++ a ∧ b ≠ [] := by
  obtain ⟨s0, s1, name, s2, s3, h0, h1, h1n, hname, h2, h3, hb, hline⟩ := directiveMatch_sound h
  refine ⟨hline, ?_⟩
  rw [hb]
  simp

lemma split_last {X Y m : List Char} {c : Char} (h : X ++ Y = m ++ [c]) (hc : c ∉ m)
    (hY : Y ≠ []) : ∃ Y2, Y = Y2 ++ [c] ∧ m = X ++ Y2 ∧ c ∉ X ∧ c ∉ Y2 := by
  have hY2 : Y = Y.dropLast ++ [Y.getLast hY] := (List.dropLast_append_getLast hY).symm
  have h2 : (X ++ Y.dropLast) ++ [Y.getLast hY] = m ++ [c] := by
    rw [List.append_assoc, ← hY2]
    exact h
  obtain ⟨hmeq, hlast⟩ := List.append_inj' h2 (by simp)
  have hcc : Y.getLast hY = c := by simpa using hlast
  refine ⟨Y.dropLast, by rw [← hcc]; exact hY2, hmeq.symm, ?_, ?_⟩
  · intro hx
    exact hc (hmeq ▸ List.mem_append_left _ hx)
  · intro hx
    exact hc (hmeq ▸ List.mem_append_right _ hx)

lemma wfLines_map_processLine {v : List Char} (hv : '\n' ∉ v) :
    ∀ ls : List (List Char), wfLines ls → wfLines (ls.map (processLine v)) := by
  intro ls
  induction ls with
  | nil => intro h; exact h
  | cons l ls ih =>
    intro hwf
    obtain ⟨⟨m, hm, hcase⟩, hrest⟩ := hwf
    refine ⟨?_, ih hrest⟩
    cases hmt : directiveMatch l with
    | none =>
      rw [processLine_of_none hmt]
      refine ⟨m, hm, ?_⟩
      rcases hcase with hl | ⟨hls, hl, hne⟩
      · exact Or.inl hl
      · exact Or.inr ⟨by simp [hls], hl, hne⟩
    | some ba =>
      obtain ⟨b, a⟩ := ba
      obtain ⟨hline, hbne⟩ := directiveMatch_line_split hmt
      rw [processLine_of_some hmt]
      rcases hcase with hl | ⟨hls, hl, hne⟩
      · have hXY : (b ++ "next".toList) ++ a = m ++ ['\n'] := by
          rw [← hline, ← hl]
        have haY : a ≠ [] := by
          intro ha0
          subst ha0
          have h1 : l.getLast? = some 't' := by
            rw [hline]
            simp only [List.append_nil]
            rw [List.getLast?_append_of_ne_nil _ (show "next".toList ≠ [] by decide)]
            decide
          have h2 : l.getLast? = some '\n' := by
            rw [hl, List.getLast?_append_of_ne_nil _ (show ['\n'] ≠ [] by decide)]
            rfl
          rw [h1] at h2
          simp at h2
        obtain ⟨a2, ha2, hmeq, hcb, hca2⟩ := split_last hXY hm haY
        have hcb2 : '\n' ∉ b := fun hx => hcb (List.mem_append_left _ hx)
        refine ⟨b ++ v ++ a2, ?_, Or.inl ?_⟩
        · intro hx
          rcases List.mem_append.mp hx with hx | hx
          · rcases List.mem_append.mp hx with hx | hx
            · exact hcb2 hx
            · exact hv hx
          · exact hca2 hx
        · rw [ha2]
          simp [List.append_assoc]
      · subst hl
        have hcb : '\n' ∉ b := fun hx => hm (hline ▸ List.mem_append_left _
          (List.mem_append_left _ hx))
        have hca : '\n' ∉ a := fun hx => hm (hline ▸ List.mem_append_right _ hx)
        refine ⟨b ++ v ++ a, ?_, Or.inr ⟨by simp [hls], rfl, ?_⟩⟩
        · intro hx
          rcases List.mem_append.mp hx with hx | hx
          · rcases List.mem_append.mp hx with hx | hx
            · exact hcb hx
            · exact hv hx
          · exact hca hx
        · simp [hbne]

lemma dropSeq_next_none {w t : List Char} (hlen : 4 ≤ w.length)
    (hne : w.take 4 ≠ "next".toList) :
    dropSeq "next".toList (w ++ t) = none := by
  obtain ⟨c1, c2, c3, c4, w2, rfl⟩ : ∃ c1 c2 c3 c4 w2, w = c1 :: c2 :: c3 :: c4 :: w2 := by
    rcases w with _ | ⟨c1, _ | ⟨c2, _ | ⟨c3, _ | ⟨c4, w2⟩⟩⟩⟩
    · simp at hlen
    · simp at hlen
    · simp at hlen
    · simp at hlen
    · exact ⟨c1, c2, c3, c4, w2, rfl⟩
  have hta : (c1 :: c2 :: c3 :: c4 :: w2).take 4 = [c1, c2, c3, c4] := rfl
  rw [hta] at hne
  by_cases h1 : c1 = 'n'
  · by_cases h2 : c2 = 'e'
    · by_cases h3 : c3 = 'x'
      · by_cases h4 : c4 = 't'
        · exact absurd (by rw [h1, h2, h3, h4]; rfl) hne
        · simp [dropSeq, h1, h2, h3, h4]
      · simp [dropSeq, h1, h2, h3]
    · simp [dropSeq, h1, h2]
  · simp [dropSeq, h1]

lemma rewritten_no_rematch {l b a v : List Char} (hm : directiveMatch l = some (b, a))
    (hlen : 4 ≤ (v.dropWhile isSpace).length)
    (hne : (v.dropWhile isSpace).take 4 ≠ "next".toList) :
    directiveMatch (b ++ v ++ a) = none := by
  obtain ⟨s0, s1, name, s2, s3, h0, h1, h1n, hname, h2, h3, hb, hline⟩ := directiveMatch_sound hm
  have harg : b ++ v ++ a =
      s0 ++ '.' :: '.' :: (s1 ++ name ++ s2 ++ ':' :: ':' :: (s3 ++ (v ++ a))) := by
    rw [hb]
    simp [List.cons_append, List.append_assoc]
  rw [harg]
  refine directiveMatch_run_none h0 h1 h1n (mem_directiveNames_iff.mpr hname) h2 ?_
  rw [all_space_dropWhile h3]
  have hwne : ¬(v.dropWhile isSpace).isEmpty = true := by
    intro hemp
    rw [List.isEmpty_iff.mp hemp] at hlen
    simp at hlen
  rw [List.dropWhile_append, if_neg hwne]
  exact dropSeq_next_none hlen hne

lemma fileWrite_none_iff (v c : List Char) :
    fileWrite v c = none ↔ changedCount v c = 0 := by
  rw [fileWrite, changedCount]
  by_cases h : (processLines v (splitLines c)).2 = 0 <;> simp [h]

lemma fileWrite_some (v c : List Char) (h : changedCount v c ≠ 0) :
    fileWrite v c = some ((splitLines c).map (processLine v)).flatten := by
  rw [changedCount, processLines_eq] at h
  rw [fileWrite, processLines_eq]
  simp [h]

/-- C4 amended: running the rewriter twice with the same target version is
idempotent (the second run changes zero lines and leaves the file content
byte-identical to the first run) provided the target version contains no
newline and its whitespace-stripped form is at least four characters long
and does not start with `next`; without that proviso a second run can
change lines again, because the rewritten version field can itself re-match
the sentinel grammar. -/
theorem rewrite_idempotent (version content : List Char)
    (hlen : 4 ≤ (version.dropWhile isSpace).length)
    (hne : (version.dropWhile isSpace).take 4 ≠ "next".toList)
    (hnl : '\n' ∉ version) :
    runFile version (runFile version content) = runFile version content ∧
    changedCount version (runFile version content) = 0 := by
  by_cases h0 : changedCount version content = 0
  · have hw : fileWrite version content = none := (fileWrite_none_iff _ _).mpr h0
    have hrf : runFile version content = content := by rw [runFile, hw]
    rw [hrf]
    exact ⟨hrf, h0⟩
  · have hw := fileWrite_some version content h0
    have hrf : runFile version content =
        ((splitLines content).map (processLine version)).flatten := by
      rw [runFile, hw]
    have hwf2 : wfLines ((splitLines content).map (processLine version)) :=
      wfLines_map_processLine hnl _ (splitLinesAux_wf content [] (by simp))
    have hsplit2 : splitLines ((splitLines content).map (processLine version)).flatten
        = (splitLines content).map (processLine version) := splitLines_flatten _ hwf2
    have hnone : ∀ l2 ∈ (splitLines content).map (processLine version),
        directiveMatch l2 = none := by
      intro l2 hl2
      obtain ⟨l, hl, rfl⟩ := List.mem_map.mp hl2
      cases hmt : directiveMatch l with
      | none =>
        rw [processLine_of_none hmt]
        exact hmt
      | some ba =>
        obtain ⟨b, a⟩ := ba
        rw [processLine_of_some hmt]
        exact rewritten_no_rematch hmt hlen hne
    have hcount2 : changedCount version
        ((splitLines content).map (processLine version)).flatten = 0 := by
      rw [changedCount, processLines_eq, hsplit2]
      simp only [List.countP_eq_zero]
      intro l2 hl2
      simp [hnone l2 hl2]
    refine ⟨?_, by rw [hrf]; exact hcount2⟩
    rw [hrf, runFile, (fileWrite_none_iff _ _).mpr hcount2]

theorem rewrite_idempotent_witness :
    runFile "3.13".toList (runFile "3.13".toList ".. versionadded:: next\nbody\n".toList)
        = runFile "3.13".toList ".. versionadded:: next\nbody\n".toList ∧
    changedCount "3.13".toList
        (runFile "3.13".toList ".. versionadded:: next\nbody\n".toList) = 0 :=
  rewrite_idempotent "3.13".toList ".. versionadded:: next\nbody\n".toList
    (by decide) (by decide) (by decide)

/-- C4 counterexample: the claim quantifies over every target version
string, but with target version `nexta` the file `.. versionchanged:: next\n`
is rewritten to `.. versionchanged:: nexta\n` by the first run, which the
second run matches again (its version field starts with the sentinel
`next`), changing the line once more: the second run neither changes zero
lines nor leaves the file byte-identical. -/
theorem rewrite_not_idempotent_counterexample :
    runFile "nexta".toList
        (runFile "nexta".toList ".. versionchanged:: next\n".toList)
      ≠ runFile "nexta".toList ".. versionchanged:: next\n".toList ∧
    changedCount "nexta".toList
        (runFile "nexta".toList ".. versionchanged:: next\n".toList) = 1 := by
  exact ⟨by decide, by decide⟩

example : parseTag "3.13.0rc1".toList = some ⟨3, 13, 0, PreLevel.rc 1⟩ := by decide

example : parseTag "3.13.0a1".toList = some ⟨3, 13, 0, PreLevel.alpha 1⟩ := by decide

example : parseTag "3.13.0".toList = some ⟨3, 13, 0, PreLevel.final⟩ := by decide

example : parseTag "3.13".toList = none := by decide

example : tagToString ⟨3, 13, 0, PreLevel.rc 1⟩ = "3.13.0rc1".toList := by decide

example :
    containsSeq (unreleasedMarker ⟨3, 13, 0, PreLevel.rc 1⟩)
      "<div>New in 3.13.0rc1 (unreleased)</div>".toList = true := by decide

example :
    containsSeq (unreleasedMarker ⟨3, 13, 0, PreLevel.rc 1⟩)
      "<div>New in 3.13</div>".toList = false := by decide

lemma digitVal_digitChar : ∀ d < 10, digitVal (digitChar d) = d := by decide

lemma isDigit_digitChar : ∀ d < 10, (digitChar d).isDigit = true := by decide

lemma natToCharsAux_zero : ∀ fuel, natToCharsAux fuel 0 = [] := by
  intro f
  cases f <;> simp [natToCharsAux]

lemma natToCharsAux_foldl : ∀ fuel, ∀ n acc : Nat, n ≠ 0 → n ≤ fuel →
    List.foldl (fun r c => 10 * r + digitVal c) acc (natToCharsAux fuel n)
      = acc * 10 ^ (natToCharsAux fuel n).length + n := by
  intro fuel
  induction fuel with
  | zero => intro n acc hn hle; omega
  | succ fuel ih =>
    intro n acc hn hle
    have hstep : natToCharsAux (fuel + 1) n
        = natToCharsAux fuel (n / 10) ++ [digitChar (n % 10)] := by
      simp [natToCharsAux, hn]
    have hmod : n % 10 < 10 := Nat.mod_lt _ (by norm_num)
    have hdv : digitVal (digitChar (n % 10)) = n % 10 := digitVal_digitChar _ hmod
    rw [hstep, List.foldl_append, List.length_append]
    by_cases hq : n / 10 = 0
    · rw [hq, natToCharsAux_zero]
      simp only [List.foldl_nil, List.length_nil, List.foldl_cons, hdv]
      have hlt : n < 10 := by omega
      have hmn : n % 10 = n := by omega
      simp [hmn, pow_succ]
      omega
    · have hpos : 0 < n := Nat.pos_of_ne_zero hn
      have hlt : n / 10 < n := Nat.div_lt_self hpos (by norm_num)
      have hle2 : n / 10 ≤ fuel := by omega
      rw [ih (n / 10) acc hq hle2]
      simp only [List.foldl_cons, List.foldl_nil, hdv, List.length_cons, List.length_nil]
      have hdm : 10 * (n / 10) + n % 10 = n := Nat.div_add_mod n 10
      calc 10 * (acc * 10 ^ (natToCharsAux fuel (n / 10)).length + n / 10) + n % 10
          = acc * 10 ^ ((natToCharsAux fuel (n / 10)).length + (0 + 1))
              + (10 * (n / 10) + n % 10) := by ring
        _ = acc * 10 ^ ((natToCharsAux fuel (n / 10)).length + (0 + 1)) + n := by rw [hdm]

lemma charsToNat_natToChars (n : Nat) : charsToNat (natToChars n) = n := by
  by_cases hn : n = 0
  · subst hn
    decide
  · rw [natToChars, if_neg hn, charsToNat, natToCharsAux_foldl n n 0 hn le_rfl]
    simp

lemma natToCharsAux_digits : ∀ fuel n c, c ∈ natToCharsAux fuel n → c.isDigit = true := by
  intro fuel
  induction fuel with
  | zero => intro n c hc; simp [natToCharsAux] at hc
  | succ fuel ih =>
    intro n c hc
    by_cases hn : n = 0
    · subst hn
      simp [natToCharsAux] at hc
    · rw [show natToCharsAux (fuel + 1) n
          = natToCharsAux fuel (n / 10) ++ [digitChar (n % 10)] by simp [natToCharsAux, hn]]
        at hc
      rcases List.mem_append.mp hc with h | h
      · exact ih _ _ h
      · rw [List.mem_singleton.mp h]
        exact isDigit_digitChar _ (Nat.mod_lt _ (by norm_num))

lemma natToChars_digits : ∀ n, ∀ c ∈ natToChars n, c.isDigit = true := by
  intro n c hc
  by_cases hn : n = 0
  · subst hn
    simp [natToChars] at hc
    subst hc
    decide
  · rw [natToChars, if_neg hn] at hc
    exact natToCharsAux_digits _ _ _ hc

lemma natToChars_ne_nil (n : Nat) : natToChars n ≠ [] := by
  by_cases hn : n = 0
  · subst hn
    simp [natToChars]
  · rw [natToChars, if_neg hn]
    cases n with
    | zero => exact absurd rfl hn
    | succ m => simp [natToCharsAux]

lemma all_p_takeWhile {p : Char → Bool} {s : List Char} (hs : ∀ c ∈ s, p c = true)
    (t : List Char) : (s ++ t).takeWhile p = s ++ t.takeWhile p := by
  induction s with
  | nil => simp
  | cons x xs ih =>
    have hx : p x = true := hs x (List.mem_cons_self _ _)
    simp [List.takeWhile_cons, hx, ih (fun c hc => hs c (List.mem_cons_of_mem _ hc))]

lemma all_p_dropWhile {p : Char → Bool} {s : List Char} (hs : ∀ c ∈ s, p c = true)
    (t : List Char) : (s ++ t).dropWhile p = t.dropWhile p := by
  induction s with
  | nil => simp
  | cons x xs ih =>
    have hx : p x = true := hs x (List.mem_cons_self _ _)
    simp [List.dropWhile_cons, hx, ih (fun c hc => hs c (List.mem_cons_of_mem _ hc))]

lemma cons_np_takeWhile {p : Char → Bool} {c : Char} (hc : p c = false) (r : List Char) :
    (c :: r).takeWhile p = [] := by
  simp [List.takeWhile_cons, hc]

lemma cons_np_dropWhile {p : Char → Bool} {c : Char} (hc : p c = false) (r : List Char) :
    (c :: r).dropWhile p = c :: r := by
  simp [List.dropWhile_cons, hc]

lemma readNat_append {n : Nat} {c : Char} (hc : c.isDigit = false) {t : List Char} :
    readNat (natToChars n ++ c :: t) = some (n, c :: t) := by
  rw [readNat, all_p_takeWhile (natToChars_digits n), cons_np_takeWhile hc,
    List.append_nil, if_neg (natToChars_ne_nil n),
    all_p_dropWhile (natToChars_digits n), cons_np_dropWhile hc,
    charsToNat_natToChars]

lemma readNat_exact {n : Nat} : readNat (natToChars n) = some (n, []) := by
  have htw : (natToChars n).takeWhile Char.isDigit = natToChars n := by
    have := all_p_takeWhile (natToChars_digits n) []
    simpa using this
  have hdw : (natToChars n).dropWhile Char.isDigit = [] := by
    have := all_p_dropWhile (natToChars_digits n) []
    simpa using this
  rw [readNat, htw, hdw, if_neg (natToChars_ne_nil n), charsToNat_natToChars]

lemma readSerial_natToChars (k : Nat → PreLevel) (ma mi mc n : Nat) :
    readSerial k ma mi mc (natToChars n) = some ⟨ma, mi, mc, k n⟩ := by
  rw [readSerial, readNat_exact]

lemma parseTag_tagToString (t : Tag) : parseTag (tagToString t) = some t := by
  obtain ⟨ma, mi, mc, lv⟩ := t
  have hdot : ('.' : Char).isDigit = false := by decide
  cases lv with
  | final =>
    simp only [tagToString, levelSuffix, List.append_nil, parseTag,
      readNat_append hdot, readNat_exact]
  | alpha n =>
    simp only [tagToString, levelSuffix, parseTag, readNat_append hdot,
      readNat_append (show ('a' : Char).isDigit = false by decide),
      readSerial_natToChars]
  | beta n =>
    simp only [tagToString, levelSuffix, parseTag, readNat_append hdot,
      readNat_append (show ('b' : Char).isDigit = false by decide),
      readSerial_natToChars]
  | rc n =>
    simp only [tagToString, levelSuffix, parseTag, readNat_append hdot,
      readNat_append (show ('r' : Char).isDigit = false by decide),
      readSerial_natToChars]

/-- C9: for every valid version string matching the grammar, parsing
round-trips (`parse (to_string (parse s)) = parse s`), and the ordering of
parsed tags follows the pre-release qualifier ordering
alpha < beta < release candidate < final within the same series. -/
theorem tag_roundtrip_and_order :
    (∀ (s : List Char) (t : Tag), parseTag s = some t →
        parseTag (tagToString t) = parseTag s) ∧
    (∀ t1 t2 : Tag, t1.major = t2.major → t1.minor = t2.minor → t1.micro = t2.micro →
        levelRank t1.level < levelRank t2.level → tagLt t1 t2) := by
  constructor
  · intro s t h
    rw [h, parseTag_tagToString t]
  · intro t1 t2 h1 h2 h3 h4
    exact Or.inr ⟨h1, Or.inr ⟨h2, Or.inr ⟨h3, Or.inl h4⟩⟩⟩

theorem tag_roundtrip_and_order_witness :
    parseTag (tagToString ⟨3, 13, 0, PreLevel.rc 1⟩) = parseTag "3.13.0rc1".toList ∧
    tagLt ⟨3, 13, 0, PreLevel.alpha 2⟩ ⟨3, 13, 0, PreLevel.beta 1⟩ :=
  ⟨tag_roundtrip_and_order.1 "3.13.0rc1".toList ⟨3, 13, 0, PreLevel.rc 1⟩ (by decide),
    tag_roundtrip_and_order.2 ⟨3, 13, 0, PreLevel.alpha 2⟩ ⟨3, 13, 0, PreLevel.beta 1⟩
      rfl rfl rfl (by decide)⟩

/-- C6: for a non-exempt tag with the docs archive present, if the front
page contains the unreleased marker embedding the exact current tag the
check prompts the operator exactly once, passing only on the answer `yes`
and raising an assertion failure on `no` or any other answer; if the
content carries no such marker (only the released form) the check passes
without prompting. -/
theorem doc_unreleased_prompting (st : ReleaseState) (content ans : List Char)
    (rest : List (List Char))
    (halpha : isAlphaRelease st.tag = false)
    (hfile : lookupFile st.files (docsArchiveName st.tag) = some content) :
    (containsSeq (unreleasedMarker st.tag) content = true →
      check_doc_unreleased_version st (ans :: rest) =
        (if ans = "yes".toList then CheckResult.passed else CheckResult.assertionFailure, 1)) ∧
    (containsSeq (unreleasedMarker st.tag) content = false →
      ∀ answers, check_doc_unreleased_version st answers = (CheckResult.passed, 0)) := by
  constructor
  · intro hmark
    rw [check_doc_unreleased_version.eq_def, if_neg (by simp [halpha]), hfile]
    simp only [hmark, if_true]
    rcases eq_or_ne ans ['y', 'e', 's'] with hy | hy <;> simp [hy]
  · intro hmark answers
    rw [check_doc_unreleased_version.eq_def, if_neg (by simp [halpha]), hfile]
    simp [hmark]

theorem doc_unreleased_prompting_witness :
    check_doc_unreleased_version
        ⟨⟨3, 13, 0, PreLevel.rc 1⟩,
          [(docsArchiveName ⟨3, 13, 0, PreLevel.rc 1⟩,
            "<div>New in 3.13.0rc1 (unreleased)</div>".toList)]⟩
        ["no".toList] = (CheckResult.assertionFailure, 1) ∧
    check_doc_unreleased_version
        ⟨⟨3, 13, 0, PreLevel.rc 1⟩,
          [(docsArchiveName ⟨3, 13, 0, PreLevel.rc 1⟩,
            "<div>New in 3.13.0rc1 (unreleased)</div>".toList)]⟩
        ["yes".toList] = (CheckResult.passed, 1) ∧
    check_doc_unreleased_version
        ⟨⟨3, 13, 0, PreLevel.rc 1⟩,
          [(docsArchiveName ⟨3, 13, 0, PreLevel.rc 1⟩,
            "<div>New in 3.13</div>".toList)]⟩
        ["no".toList] = (CheckResult.passed, 0) := by
  refine ⟨?_, ?_, ?_⟩
  · have h := (doc_unreleased_prompting
      ⟨⟨3, 13, 0, PreLevel.rc 1⟩,
        [(docsArchiveName ⟨3, 13, 0, PreLevel.rc 1⟩,
          "<div>New in 3.13.0rc1 (unreleased)</div>".toList)]⟩
      "<div>New in 3.13.0rc1 (unreleased)</div>".toList "no".toList []
      (by decide) (by simp [lookupFile])).1 (by decide)
    rw [if_neg (by decide)] at h
    exact h
  · have h := (doc_unreleased_prompting
      ⟨⟨3, 13, 0, PreLevel.rc 1⟩,
        [(docsArchiveName ⟨3, 13, 0, PreLevel.rc 1⟩,
          "<div>New in 3.13.0rc1 (unreleased)</div>".toList)]⟩
      "<div>New in 3.13.0rc1 (unreleased)</div>".toList "yes".toList []
      (by decide) (by simp [lookupFile])).1 (by decide)
    rw [if_pos (by decide)] at h
    exact h
  · exact (doc_unreleased_prompting
      ⟨⟨3, 13, 0, PreLevel.rc 1⟩,
        [(docsArchiveName ⟨3, 13, 0, PreLevel.rc 1⟩,
          "<div>New in 3.13</div>".toList)]⟩
      "<div>New in 3.13</div>".toList "no".toList []
      (by decide) (by simp [lookupFile])).2 (by decide) ["no".toList]

/-- C7: for an alpha pre-release tag the check is a no-op: it passes
without prompting, whatever the docs archive situation and the answer
stream. -/
theorem alpha_tag_no_op (st : ReleaseState) (answers : List (List Char))
    (h : isAlphaRelease st.tag = true) :
    check_doc_unreleased_version st answers = (CheckResult.passed, 0) := by
  rw [check_doc_unreleased_version.eq_def, if_pos h]

theorem alpha_tag_no_op_witness :
    check_doc_unreleased_version ⟨⟨3, 13, 0, PreLevel.alpha 1⟩, []⟩ ["no".toList]
      = (CheckResult.passed, 0) :=
  alpha_tag_no_op ⟨⟨3, 13, 0, PreLevel.alpha 1⟩, []⟩ ["no".toList] (by decide)

/-- C8: for a tag that is not exempt from the unreleased-doc check (such
as a release candidate), the check raises an assertion-style precondition
failure when the deterministically named docs archive is absent. -/
theorem missing_archive_fails (st : ReleaseState) (answers : List (List Char))
    (halpha : isAlphaRelease st.tag = false)
    (hmissing : lookupFile st.files (docsArchiveName st.tag) = none) :
    check_doc_unreleased_version st answers = (CheckResult.assertionFailure, 0) := by
  rw [check_doc_unreleased_version.eq_def, if_neg (by simp [halpha]), hmissing]

theorem missing_archive_fails_witness :
    check_doc_unreleased_version ⟨⟨3, 13, 0, PreLevel.rc 1⟩, []⟩ []
      = (CheckResult.assertionFailure, 0) :=
  missing_archive_fails ⟨⟨3, 13, 0, PreLevel.rc 1⟩, []⟩ [] (by decide) rfl

end ReleaseTools
